import Mathlib

/-!
Shallow embedding of the `manifold_hangman` evil-hangman engine
(`src/main.rs`, `src/hangman.rs`) and proofs about it.

Modelling conventions:
* A Rust `String` word is a `List Char`; a file's contents is a
  `List (List Char)` of lines.
* `u64` arithmetic is `Nat` with an explicit `% 2 ^ 64` applied exactly where
  the machine type could wrap (`word_signature`'s accumulator).
* `f64` values (the weights, `evil_exponent`, `evil_factor`, the random draw)
  are abstracted as rationals, and `f64::powf` is abstracted as an arbitrary
  function `pf : ℚ → ℚ → ℚ`; all weighted-choice theorems are proved for every
  such `pf`, hence hold in particular for the actual floating-point weights.
* A Rust panic (`unwrap` on `None`) is `Option.none`.
* The `HashMap<GuessSignature, Vec<String>>` is an association list
  `List (ℕ × List Word)`; its nondeterministic iteration order is modelled by
  quantifying over arbitrary permutations of that list at the one place the
  order is observed (`choose_guess_outcome`'s `for` loop).
* The deterministic seeded generator (`ChaCha12Rng`) is abstracted as a draw
  stream `urand : ℕ → ℚ` indexed by a draw counter; each guess consumes
  exactly one draw, mirroring the single `rng.random::<f64>()` call per
  `weighted_choice` invocation.
-/

namespace Hangman

/-- A word: a Rust `String`, as its sequence of characters. -/
abbrev Word := List Char

/-- `type GuessSignature = u64` (hangman.rs:44): least significant bit =
start of the word. -/
abbrev GuessSignature := ℕ

/-- The modulus of `u64` arithmetic. -/
def U64MOD : ℕ := 2 ^ 64

/-- One step of `word_signature`'s loop body in `u64` arithmetic:
`sig *= 2; if letter == guess { sig += 1 }`, wrapping at `2^64`. -/
def sigStep (guess : Char) (sig : ℕ) (letter : Char) : ℕ :=
  (2 * sig + if letter = guess then 1 else 0) % U64MOD

/-- `word_signature` (hangman.rs:47-54): fold the step over
`word.chars().rev()`, starting from `0`, in `u64` arithmetic. -/
def word_signature (word : Word) (guess : Char) : GuessSignature :=
  word.reverse.foldl (sigStep guess) 0

/-- The same step without the `u64` wrap, for comparison. -/
def sigStepNat (guess : Char) (sig : ℕ) (letter : Char) : ℕ :=
  2 * sig + if letter = guess then 1 else 0

/-- The ideal (unbounded) signature: what `word_signature` computes when no
overflow occurs. -/
def wordSignatureNat (word : Word) (guess : Char) : ℕ :=
  word.reverse.foldl (sigStepNat guess) 0

/-- `decode_signature` (hangman.rs:58-70): emits `num_letters` booleans,
`sig % 2 == 1` first (the word's first letter), halving the signature each
time exactly as the source does (`sig = (sig - m) / 2`). -/
def decode_signature (sig : ℕ) (numLetters : ℕ) : List Bool :=
  match numLetters with
  | 0 => []
  | n + 1 => decide (sig % 2 = 1) :: decode_signature ((sig - sig % 2) / 2) n

/-- `display_signature` (hangman.rs:74-77): zip the decoded bits with the
previous pattern; a set bit shows the guess, a clear bit keeps the old
character. -/
def display_signature (sig : GuessSignature) (prevInfo : Word) (guess : Char) : Word :=
  ((decode_signature sig prevInfo.length).zip prevInfo).map
    (fun bc => if bc.1 then guess else bc.2)

/-- Model of `u64::count_ones`, used by `count_matches` (hangman.rs:79-81). -/
def countOnes (n : ℕ) : ℕ :=
  if n = 0 then 0 else n % 2 + countOnes (n / 2)
decreasing_by exact Nat.div_lt_self (Nat.pos_of_ne_zero (by assumption)) (by omega)

/-- `count_matches` (hangman.rs:79-81): `sig.count_ones()`. -/
def count_matches (sig : GuessSignature) : ℕ := countOnes sig

/-- The bucket mapping: contents of the `HashMap<GuessSignature, Vec<String>>`
as an association list (one entry per key, in insertion order). -/
abbrev Buckets := List (GuessSignature × List Word)

/-- One iteration of `guess_buckets`' loop (hangman.rs:88-95): push onto an
existing bucket (`get_mut` + `push`) or insert a fresh singleton bucket. -/
def insertWord (buckets : Buckets) (sig : GuessSignature) (word : Word) : Buckets :=
  match buckets with
  | [] => [(sig, [word])]
  | (s, ws) :: rest =>
    if s = sig then (s, ws ++ [word]) :: rest
    else (s, ws) :: insertWord rest sig word

/-- `guess_buckets` (hangman.rs:85-98): sort the word list into buckets keyed
by guess signature. -/
def guess_buckets (wordList : List Word) (guess : Char) : Buckets :=
  wordList.foldl (fun b w => insertWord b (word_signature w guess) w) []

/-- `HashMap::get` on the modelled mapping. -/
def lookupBucket (buckets : Buckets) (sig : GuessSignature) : Option (List Word) :=
  match buckets with
  | [] => none
  | (s, ws) :: rest => if s = sig then some ws else lookupBucket rest sig

/-- Total number of words across all buckets. -/
def bucketsSize (buckets : Buckets) : ℕ :=
  (buckets.map (fun p => p.2.length)).sum

/-- The comparator `weighted_choice` sorts by (hangman.rs:122-127):
weight first (`total_cmp`), signature as tie-breaker — as a boolean `≤`. -/
def optLE (a b : ℚ × GuessSignature) : Bool :=
  a.1 < b.1 || (a.1 = b.1 && a.2 ≤ b.2)

/-- `options.sort_by(...)` (hangman.rs:122-127) with the lexicographic
comparator. -/
def sortOptions (options : List (ℚ × GuessSignature)) : List (ℚ × GuessSignature) :=
  options.mergeSort optLE

/-- `total_weight` (hangman.rs:129): sum of the weights. -/
def totalWeight (options : List (ℚ × GuessSignature)) : ℚ :=
  (options.map (fun t => t.1)).sum

/-- The subtracting walk (hangman.rs:132-135): subtract each weight from the
dart; return the first element at which the dart goes negative. -/
def walkDart : List (ℚ × GuessSignature) → ℚ → Option GuessSignature
  | [], _ => none
  | (w, x) :: rest, dart =>
    if dart - w < 0 then some x else walkDart rest (dart - w)

/-- `weighted_choice` (hangman.rs:117-139). `u` is the generator's uniform
draw (`rng.random::<f64>()`); the `unwrap` panic on an empty list is `none`
(hangman.rs:138). -/
def weighted_choice (options : List (ℚ × GuessSignature)) (u : ℚ) :
    Option GuessSignature :=
  let sorted := sortOptions options
  let dart := u * totalWeight sorted
  match walkDart sorted dart with
  | some x => some x
  | none => sorted.getLast?.map (fun t => t.2)

/-- The tunable parameters (`Settings.evil_exponent`, `Settings.evil_factor`,
hangman.rs:16-24); the `f64` values are modelled as rationals. -/
structure Settings where
  evil_exponent : ℚ
  evil_factor : ℚ

/-- The weight of one bucket (hangman.rs:146-148):
`(bucket_size as f64).powf(evil_exponent) / evil_factor.powf(num_correct)`,
where `num_correct = count_matches(sig)`. `pf` abstracts `f64::powf`. -/
def bucketWeight (pf : ℚ → ℚ → ℚ) (st : Settings) (sig : GuessSignature)
    (bucketSize : ℕ) : ℚ :=
  pf (bucketSize : ℚ) st.evil_exponent / pf st.evil_factor (count_matches sig : ℚ)

/-- The options list built by `choose_guess_outcome`'s `for` loop
(hangman.rs:143-150), pushing one `(weight, sig)` pair per bucket in
iteration order. -/
def buildOptions (pf : ℚ → ℚ → ℚ) (st : Settings) (buckets : Buckets) :
    List (ℚ × GuessSignature) :=
  buckets.foldl
    (fun opts p => opts ++ [(bucketWeight pf st p.1 p.2.length, p.1)]) []

/-- `choose_guess_outcome` (hangman.rs:142-154). The bucket list is the
mapping in the `HashMap`'s iteration order. -/
def choose_guess_outcome (pf : ℚ → ℚ → ℚ) (buckets : Buckets) (st : Settings)
    (u : ℚ) : Option GuessSignature :=
  weighted_choice (buildOptions pf st buckets) u

/-- Session history (hangman.rs:27-31); the seed is absorbed into the
abstract draw stream `urand` of `replay_history`. -/
structure History where
  letter_count : ℕ
  guesses : List Char

/-- One guess of `replay_history`'s loop body (hangman.rs:220-226):
`do_guess` (hangman.rs:156-160) followed by the pattern update and
`buckets.remove(&guess_result)`. `iterOrder` is the incidental iteration
order the `HashMap` presents to `choose_guess_outcome` (any permutation of
the bucket entries). `none` models the panics (`unwrap`) inside
`weighted_choice` / `buckets.remove`. -/
def replayStep (pf : ℚ → ℚ → ℚ) (st : Settings)
    (iterOrder : Buckets → Buckets) (guess : Char) (u : ℚ)
    (state : List Word × Word) : Option (List Word × Word) :=
  let buckets := guess_buckets state.1 guess
  match choose_guess_outcome pf (iterOrder buckets) st u with
  | none => none
  | some sig =>
    match lookupBucket buckets sig with
    | none => none
    | some ws => some (ws, display_signature sig state.2 guess)

/-- The guess loop of `replay_history` (hangman.rs:220-226), threading the
generator as a draw counter `n` into the abstract draw stream `urand`
(one draw per guess). -/
def replayLoop (pf : ℚ → ℚ → ℚ) (st : Settings)
    (iterOrder : ℕ → Buckets → Buckets) (urand : ℕ → ℚ) :
    ℕ → List Char → List Word × Word → Option (List Word × Word)
  | _, [], state => some state
  | n, g :: rest, state =>
    match replayStep pf st (iterOrder n) g (urand n) state with
    | none => none
    | some state' => replayLoop pf st iterOrder urand (n + 1) rest state'

/-- `replay_history` (hangman.rs:215-229): filter the word list to the
session's length (`retain`), start from an all-placeholder pattern, and
re-run every guess in order. Returns the final `(word_list, word_info)`. -/
def replay_history (pf : ℚ → ℚ → ℚ) (st : Settings)
    (iterOrder : ℕ → Buckets → Buckets) (urand : ℕ → ℚ)
    (wordList : List Word) (history : History) : Option (List Word × Word) :=
  let wl := wordList.filter (fun w => w.length = history.letter_count)
  let wordInfo := List.replicate history.letter_count '_'
  replayLoop pf st iterOrder urand 0 history.guesses (wl, wordInfo)

/-- The regex `^[a-zA-Z]+$` of `read_word_list` (main.rs:46): at least one
character, all ASCII letters. (`Char.isAlpha` is exactly `[a-zA-Z]`.) -/
def isAlphabetic (line : Word) : Bool :=
  !line.isEmpty && line.all (fun c => c.isAlpha)

/-- Rust `String::to_uppercase` on the ASCII-alphabetic words involved. -/
def toUppercase (w : Word) : Word := w.map Char.toUpper

/-- Lexicographic (byte-wise) `≤` on words, the order of `Vec<String>::sort`
(main.rs:63). -/
def wordLE : Word → Word → Bool
  | [], _ => true
  | _ :: _, [] => false
  | a :: as_, b :: bs => a < b || (a = b && wordLE as_ bs)

/-- `Vec::dedup` (main.rs:64): remove consecutive duplicates, keeping the
first of each run. -/
def dedupAdjacent : List Word → List Word
  | [] => []
  | [x] => [x]
  | x :: y :: rest =>
    if x = y then dedupAdjacent (y :: rest) else x :: dedupAdjacent (y :: rest)

/-- `read_word_list` (main.rs:45-67) at the level of file lines: collect the
alphabetic lines of the exclusions content, then keep each alphabetic word
line not contained in the exclusions (compared before uppercasing), uppercase
it, sort, and dedup. -/
def read_word_list (wordLines exclusionLines : List Word) : List Word :=
  let exclusions := exclusionLines.filter isAlphabetic
  let words := (wordLines.filter
      (fun w => isAlphabetic w && !exclusions.contains w)).map toUppercase
  dedupAdjacent (words.mergeSort wordLE)

/-- The word list `main` (main.rs:69-75) actually supplies to `play_game`:
`read_word_list(&settings.word_list_path, &settings.word_list_path)` — the
word-list file's contents is passed for BOTH arguments, so the contents of
the configured exclusions file (second parameter here) is never consulted. -/
def mainWordSource (wordFileLines exclusionsFileLines : List Word) : List Word :=
  read_word_list wordFileLines wordFileLines

/-! ## Lemmas: signature codec -/

theorem wordSignatureNat_nil (g : Char) : wordSignatureNat [] g = 0 := rfl

/-- `foldl` over the reverse is `foldr` of the flipped step. -/
theorem wordSignatureNat_eq_foldr (w : Word) (g : Char) :
    wordSignatureNat w g = w.foldr (fun c sig => sigStepNat g sig c) 0 := by
  unfold wordSignatureNat
  rw [List.foldl_reverse]

theorem wordSignatureNat_cons (c : Char) (w : Word) (g : Char) :
    wordSignatureNat (c :: w) g =
      2 * wordSignatureNat w g + (if c = g then 1 else 0) := by
  rw [wordSignatureNat_eq_foldr, wordSignatureNat_eq_foldr]
  rfl

/-- The unbounded fold from any accumulator is bounded by the headroom of the
remaining letters: intermediate signature values never reach
`(acc + 1) * 2 ^ length`. -/
theorem foldl_sigStepNat_lt (g : Char) :
    ∀ (l : List Char) (acc : ℕ),
      l.foldl (sigStepNat g) acc < (acc + 1) * 2 ^ l.length := by
  intro l
  induction l with
  | nil => intro acc; simp
  | cons c l ih =>
    intro acc
    have h1 := ih (sigStepNat g acc c)
    have hb : (if c = g then 1 else 0) ≤ 1 := by split <;> omega
    have h2 : sigStepNat g acc c + 1 ≤ (acc + 1) * 2 := by
      unfold sigStepNat; omega
    calc (c :: l).foldl (sigStepNat g) acc
        = l.foldl (sigStepNat g) (sigStepNat g acc c) := rfl
      _ < (sigStepNat g acc c + 1) * 2 ^ l.length := h1
      _ ≤ ((acc + 1) * 2) * 2 ^ l.length :=
          Nat.mul_le_mul_right _ h2
      _ = (acc + 1) * 2 ^ (c :: l).length := by
          simp [List.length_cons, pow_succ]; ring

/-- The unbounded signature of a word is below `2 ^ length`. -/
theorem wordSignatureNat_lt (w : Word) (g : Char) :
    wordSignatureNat w g < 2 ^ w.length := by
  have := foldl_sigStepNat_lt g w.reverse 0
  simpa [wordSignatureNat] using this

/-- The `u64` fold equals the unbounded fold on every suffix, as long as the
accumulator leaves enough headroom for the remaining letters. -/
theorem foldl_sigStep_eq (g : Char) :
    ∀ (l : List Char) (acc : ℕ), l.length ≤ 64 → acc < 2 ^ (64 - l.length) →
      l.foldl (sigStep g) acc = l.foldl (sigStepNat g) acc := by
  intro l
  induction l with
  | nil => intro acc _ _; rfl
  | cons c l ih =>
    intro acc hlen hacc
    simp only [List.length_cons] at hlen hacc
    have hlen' : l.length ≤ 64 := by omega
    have hb : (if c = g then 1 else 0) ≤ 1 := by split <;> omega
    have hstep : 2 * acc + (if c = g then 1 else 0) < 2 ^ (64 - l.length) := by
      have h1 : acc + 1 ≤ 2 ^ (64 - (l.length + 1)) := hacc
      have h2 : 64 - l.length = (64 - (l.length + 1)) + 1 := by omega
      rw [h2, pow_succ]
      omega
    have hmod : sigStep g acc c = sigStepNat g acc c := by
      unfold sigStep sigStepNat U64MOD
      apply Nat.mod_eq_of_lt
      calc 2 * acc + (if c = g then 1 else 0) < 2 ^ (64 - l.length) := hstep
        _ ≤ 2 ^ 64 := Nat.pow_le_pow_right (by omega) (by omega)
    simp only [List.foldl_cons, hmod]
    exact ih _ hlen' (by unfold sigStepNat; exact hstep)

/-- For words of supported length the `u64` computation never wraps. -/
theorem word_signature_eq_nat (w : Word) (g : Char) (h : w.length ≤ 64) :
    word_signature w g = wordSignatureNat w g := by
  unfold word_signature wordSignatureNat
  exact foldl_sigStep_eq g w.reverse 0
    (by simpa using h) (by positivity)

/-- The fold is congruent modulo `2 ^ 64` in its accumulator. -/
theorem foldl_sigStepNat_modeq (g : Char) :
    ∀ (l : List Char) (x y : ℕ), x ≡ y [MOD U64MOD] →
      l.foldl (sigStepNat g) x ≡ l.foldl (sigStepNat g) y [MOD U64MOD] := by
  intro l
  induction l with
  | nil => intro x y h; exact h
  | cons c l ih =>
    intro x y h
    simp only [List.foldl_cons]
    exact ih _ _ (Nat.ModEq.add_right _ (Nat.ModEq.mul_left 2 h))

/-- The `u64` fold is the unbounded fold reduced mod `2 ^ 64`. -/
theorem foldl_sigStep_eq_mod (g : Char) :
    ∀ (l : List Char) (acc : ℕ), acc < U64MOD →
      l.foldl (sigStep g) acc = l.foldl (sigStepNat g) acc % U64MOD := by
  intro l
  induction l with
  | nil => intro acc h; exact (Nat.mod_eq_of_lt h).symm
  | cons c l ih =>
    intro acc hacc
    have hstep : sigStep g acc c = sigStepNat g acc c % U64MOD := rfl
    have hlt : sigStep g acc c < U64MOD := by
      unfold sigStep
      exact Nat.mod_lt _ (by unfold U64MOD; positivity)
    have hcongr := foldl_sigStepNat_modeq g l (sigStepNat g acc c % U64MOD)
      (sigStepNat g acc c) (Nat.mod_modEq _ _)
    calc (c :: l).foldl (sigStep g) acc
        = l.foldl (sigStep g) (sigStep g acc c) := rfl
      _ = l.foldl (sigStepNat g) (sigStep g acc c) % U64MOD := ih _ hlt
      _ = l.foldl (sigStepNat g) (sigStepNat g acc c % U64MOD) % U64MOD := by
          rw [hstep]
      _ = l.foldl (sigStepNat g) (sigStepNat g acc c) % U64MOD := hcongr
      _ = (c :: l).foldl (sigStepNat g) acc % U64MOD := rfl

/-- `word_signature` is the exact signature reduced mod `2 ^ 64`. -/
theorem word_signature_eq_mod (w : Word) (g : Char) :
    word_signature w g = wordSignatureNat w g % U64MOD := by
  unfold word_signature wordSignatureNat
  exact foldl_sigStep_eq_mod g w.reverse 0 (by unfold U64MOD; positivity)

theorem decode_signature_succ (sig : ℕ) (n : ℕ) :
    decode_signature sig (n + 1) =
      decide (sig % 2 = 1) :: decode_signature (sig / 2) n := by
  have h : (sig - sig % 2) / 2 = sig / 2 := by omega
  simp [decode_signature, h]

theorem length_decode_signature (sig : ℕ) (n : ℕ) :
    (decode_signature sig n).length = n := by
  induction n generalizing sig with
  | zero => rfl
  | succ n ih => rw [decode_signature_succ]; simp [ih]

/-- The decode/encode round trip at the unbounded signature. -/
theorem decode_wordSignatureNat (w : Word) (g : Char) :
    decode_signature (wordSignatureNat w g) w.length = w.map (fun c => c == g) := by
  induction w with
  | nil => rfl
  | cons c w ih =>
    rw [wordSignatureNat_cons, List.length_cons, decode_signature_succ]
    have hbit : (2 * wordSignatureNat w g + (if c = g then 1 else 0)) % 2 =
        (if c = g then 1 else 0) := by
      split <;> omega
    have hdiv : (2 * wordSignatureNat w g + (if c = g then 1 else 0)) / 2 =
        wordSignatureNat w g := by
      split <;> omega
    rw [hbit, hdiv, ih]
    simp only [List.map_cons, List.cons_inj_right]
    by_cases hc : c = g <;> simp [hc]

/-- Position `i` of the decoded sequence is bit `i` of the signature. -/
theorem decode_signature_getD (n : ℕ) :
    ∀ (sig i : ℕ), i < n → (decode_signature sig n).getD i false = sig.testBit i := by
  induction n with
  | zero => intro sig i h; omega
  | succ n ih =>
    intro sig i h
    rw [decode_signature_succ]
    cases i with
    | zero => simp [Nat.testBit_zero]
    | succ i =>
      have : i < n := by omega
      simp only [List.getD_cons_succ, Nat.testBit_add_one]
      exact ih _ i this

/-- `countOnes` counts the set bits below any bound covering the number. -/
theorem countOnes_eq_filter_range (k : ℕ) :
    ∀ n : ℕ, n < 2 ^ k →
      countOnes n = ((List.range k).filter (fun i => n.testBit i)).length := by
  induction k with
  | zero =>
    intro n h
    have hn : n = 0 := by omega
    subst hn
    simp [countOnes]
  | succ k ih =>
    intro n h
    by_cases hn : n = 0
    · subst hn
      have : ∀ i, Nat.testBit 0 i = false := by simp
      simp [countOnes, this]
    · have hdiv : n / 2 < 2 ^ k := by
        have hp : n < 2 ^ k * 2 := by rw [← pow_succ]; exact h
        omega
      have hco : countOnes n = n % 2 + countOnes (n / 2) := by
        rw [countOnes]; simp [hn]
      rw [hco, ih (n / 2) hdiv, List.range_succ_eq_map]
      rw [List.filter_cons]
      have hmap : (List.map Nat.succ (List.range k)).filter (fun i => n.testBit i)
          = List.map Nat.succ ((List.range k).filter (fun i => n.testBit (Nat.succ i))) := by
        rw [List.filter_map]
        rfl
      rw [hmap]
      have htb : ∀ i, Nat.testBit n (Nat.succ i) = Nat.testBit (n / 2) i :=
        fun i => Nat.testBit_succ n i
      simp only [htb, List.length_map]
      by_cases hb : Nat.testBit n 0
      · have hm : n % 2 = 1 := by
          have h0 := Nat.testBit_zero n
          rw [hb] at h0
          exact of_decide_eq_true h0.symm
        simp [hb, hm]
        omega
      · have hm : n % 2 = 0 := by
          have h0 := Nat.testBit_zero n
          rw [h0] at hb
          have : ¬ n % 2 = 1 := by simpa using hb
          omega
        simp [hb, hm]

/-! ## Lemmas: bucket partitioner -/

/-- Looking a key up after an insertion: the inserted word is appended to its
own key's bucket; other keys are untouched. -/
theorem lookupBucket_insertWord (s' : GuessSignature) (w : Word) :
    ∀ (b : Buckets) (s : GuessSignature),
      lookupBucket (insertWord b s' w) s =
        if s = s' then some ((lookupBucket b s).getD [] ++ [w])
        else lookupBucket b s := by
  intro b
  induction b with
  | nil =>
    intro s
    by_cases h : s = s'
    · simp [insertWord, lookupBucket, h]
    · simp [insertWord, lookupBucket, h, Ne.symm h]
  | cons p rest ih =>
    intro s
    obtain ⟨ps, pws⟩ := p
    by_cases h1 : ps = s'
    · subst h1
      have he : insertWord ((ps, pws) :: rest) ps w = (ps, pws ++ [w]) :: rest := by
        simp [insertWord]
      rw [he]
      by_cases h2 : s = ps
      · subst h2
        simp [lookupBucket]
      · simp [lookupBucket, h2, Ne.symm h2]
    · have he : insertWord ((ps, pws) :: rest) s' w = (ps, pws) :: insertWord rest s' w := by
        simp [insertWord, h1]
      rw [he]
      by_cases h2 : ps = s
      · subst h2
        simp [lookupBucket, h1]
      · simp [lookupBucket, h2, ih s]

theorem insertWord_ne_nil (b : Buckets) (s : GuessSignature) (w : Word) :
    insertWord b s w ≠ [] := by
  cases b with
  | nil => simp [insertWord]
  | cons p rest =>
    obtain ⟨ps, pws⟩ := p
    by_cases h : ps = s <;> simp [insertWord, h]

theorem bucketsSize_insertWord (b : Buckets) (s : GuessSignature) (w : Word) :
    bucketsSize (insertWord b s w) = bucketsSize b + 1 := by
  induction b with
  | nil => simp [insertWord, bucketsSize]
  | cons p rest ih =>
    obtain ⟨ps, pws⟩ := p
    by_cases h : ps = s
    · subst h
      have he : insertWord ((ps, pws) :: rest) ps w = (ps, pws ++ [w]) :: rest := by
        simp [insertWord]
      rw [he]
      simp only [bucketsSize, List.map_cons, List.sum_cons, List.length_append,
        List.length_singleton]
      omega
    · have he : insertWord ((ps, pws) :: rest) s w = (ps, pws) :: insertWord rest s w := by
        simp [insertWord, h]
      rw [he]
      simp only [bucketsSize, List.map_cons, List.sum_cons] at ih ⊢
      omega

/-- Inserting either keeps the key list or appends the new key at the end. -/
theorem keys_insertWord (b : Buckets) (s : GuessSignature) (w : Word) :
    (insertWord b s w).map Prod.fst =
      if s ∈ b.map Prod.fst then b.map Prod.fst else b.map Prod.fst ++ [s] := by
  induction b with
  | nil => simp [insertWord]
  | cons p rest ih =>
    obtain ⟨ps, pws⟩ := p
    by_cases h : ps = s
    · subst h
      simp [insertWord]
    · simp [insertWord, h, ih, Ne.symm h]
      by_cases hm : s ∈ rest.map Prod.fst
      · simp [hm]
      · simp [hm, Ne.symm h]

theorem keys_nodup_insertWord (b : Buckets) (s : GuessSignature) (w : Word)
    (h : (b.map Prod.fst).Nodup) : ((insertWord b s w).map Prod.fst).Nodup := by
  rw [keys_insertWord]
  by_cases hm : s ∈ b.map Prod.fst
  · simpa [hm] using h
  · simp only [hm, if_false]
    rw [List.nodup_append]
    exact ⟨h, List.nodup_singleton s, by simpa using hm⟩

/-- Characterization of the partition fold: each key's bucket collects, in
input order, exactly the words mapped to that key. -/
theorem foldl_insertWord_getD (sigf : Word → GuessSignature) (s : GuessSignature) :
    ∀ (wl : List Word) (acc : Buckets),
      (lookupBucket (wl.foldl (fun b w => insertWord b (sigf w) w) acc) s).getD []
        = (lookupBucket acc s).getD [] ++ wl.filter (fun w => sigf w == s) := by
  intro wl
  induction wl with
  | nil => intro acc; simp
  | cons w rest ih =>
    intro acc
    simp only [List.foldl_cons]
    rw [ih (insertWord acc (sigf w) w), lookupBucket_insertWord]
    by_cases h : s = sigf w
    · have hf : (sigf w == s) = true := by rw [beq_iff_eq]; exact h.symm
      simp [h, hf, List.filter_cons]
    · have hf : (sigf w == s) = false := by
        rw [beq_eq_false_iff_ne]
        exact fun hh => h hh.symm
      simp [h, hf, List.filter_cons]

theorem foldl_insertWord_size (sigf : Word → GuessSignature) :
    ∀ (wl : List Word) (acc : Buckets),
      bucketsSize (wl.foldl (fun b w => insertWord b (sigf w) w) acc)
        = bucketsSize acc + wl.length := by
  intro wl
  induction wl with
  | nil => intro acc; simp
  | cons w rest ih =>
    intro acc
    simp only [List.foldl_cons, List.length_cons]
    rw [ih, bucketsSize_insertWord]
    omega

theorem foldl_insertWord_ne_nil (sigf : Word → GuessSignature) :
    ∀ (wl : List Word) (acc : Buckets), acc ≠ [] →
      wl.foldl (fun b w => insertWord b (sigf w) w) acc ≠ [] := by
  intro wl
  induction wl with
  | nil => intro acc h; exact h
  | cons w rest ih =>
    intro acc _
    exact ih _ (insertWord_ne_nil _ _ _)

theorem foldl_insertWord_keys_nodup (sigf : Word → GuessSignature) :
    ∀ (wl : List Word) (acc : Buckets), ((acc.map Prod.fst).Nodup) →
      (((wl.foldl (fun b w => insertWord b (sigf w) w) acc).map Prod.fst).Nodup) := by
  intro wl
  induction wl with
  | nil => intro acc h; exact h
  | cons w rest ih =>
    intro acc h
    exact ih _ (keys_nodup_insertWord _ _ _ h)

/-- Each bucket of `guess_buckets` is exactly the input's subsequence of words
with that signature (hence input order is preserved within a bucket). -/
theorem guess_buckets_getD (wl : List Word) (g : Char) (s : GuessSignature) :
    (lookupBucket (guess_buckets wl g) s).getD []
      = wl.filter (fun w => word_signature w g == s) := by
  have := foldl_insertWord_getD (fun w => word_signature w g) s wl []
  simpa [guess_buckets, lookupBucket] using this

theorem guess_buckets_size (wl : List Word) (g : Char) :
    bucketsSize (guess_buckets wl g) = wl.length := by
  have := foldl_insertWord_size (fun w => word_signature w g) wl []
  simpa [guess_buckets, bucketsSize] using this

theorem guess_buckets_eq_nil_iff (wl : List Word) (g : Char) :
    guess_buckets wl g = [] ↔ wl = [] := by
  constructor
  · intro h
    cases wl with
    | nil => rfl
    | cons w rest =>
      exact absurd h
        (by
          have : insertWord [] (word_signature w g) w ≠ [] := insertWord_ne_nil _ _ _
          exact foldl_insertWord_ne_nil (fun w => word_signature w g) rest _ this)
  · intro h; subst h; rfl

theorem guess_buckets_keys_nodup (wl : List Word) (g : Char) :
    (((guess_buckets wl g).map Prod.fst).Nodup) :=
  foldl_insertWord_keys_nodup (fun w => word_signature w g) wl [] (by simp)

/-! ## Lemmas: weighted choice and outcome policy -/

/-- The options loop is a `map` over the bucket entries in iteration order. -/
theorem buildOptions_eq_map (pf : ℚ → ℚ → ℚ) (st : Settings) (buckets : Buckets) :
    buildOptions pf st buckets
      = buckets.map (fun p => (bucketWeight pf st p.1 p.2.length, p.1)) := by
  have haux : ∀ (l : Buckets) (acc : List (ℚ × GuessSignature)),
      l.foldl (fun opts p => opts ++ [(bucketWeight pf st p.1 p.2.length, p.1)]) acc
        = acc ++ l.map (fun p => (bucketWeight pf st p.1 p.2.length, p.1)) := by
    intro l
    induction l with
    | nil => intro acc; simp
    | cons p rest ih => intro acc; simp [ih]
  simpa [buildOptions] using haux buckets []

theorem walkDart_mem :
    ∀ (l : List (ℚ × GuessSignature)) (dart : ℚ) (x : GuessSignature),
      walkDart l dart = some x → x ∈ l.map Prod.snd := by
  intro l
  induction l with
  | nil => intro dart x h; simp [walkDart] at h
  | cons p rest ih =>
    intro dart x h
    obtain ⟨w, y⟩ := p
    simp only [walkDart] at h
    by_cases hd : dart - w < 0
    · rw [if_pos hd] at h
      simp at h
      simp [h]
    · rw [if_neg hd] at h
      simpa using Or.inr (ih _ _ h)

theorem optLE_trans (a b c : ℚ × GuessSignature) :
    optLE a b → optLE b c → optLE a c := by
  unfold optLE
  intro h1 h2
  simp only [Bool.or_eq_true, Bool.and_eq_true, decide_eq_true_eq] at h1 h2 ⊢
  rcases h1 with h1 | ⟨h1, h1'⟩ <;> rcases h2 with h2 | ⟨h2, h2'⟩
  · exact Or.inl (h1.trans h2)
  · exact Or.inl (h2 ▸ h1)
  · exact Or.inl (h1 ▸ h2)
  · exact Or.inr ⟨h1.trans h2, h1'.trans h2'⟩

theorem optLE_total (a b : ℚ × GuessSignature) : optLE a b || optLE b a := by
  unfold optLE
  simp only [Bool.or_eq_true, Bool.and_eq_true, decide_eq_true_eq]
  rcases lt_trichotomy a.1 b.1 with h | h | h
  · exact Or.inl (Or.inl h)
  · rcases le_total a.2 b.2 with h2 | h2
    · exact Or.inl (Or.inr ⟨h, h2⟩)
    · exact Or.inr (Or.inr ⟨h.symm, h2⟩)
  · exact Or.inr (Or.inl h)

theorem optLE_antisymm (a b : ℚ × GuessSignature) :
    optLE a b → optLE b a → a = b := by
  unfold optLE
  intro h1 h2
  simp only [Bool.or_eq_true, Bool.and_eq_true, decide_eq_true_eq] at h1 h2
  obtain ⟨a1, a2⟩ := a
  obtain ⟨b1, b2⟩ := b
  simp only [Prod.mk.injEq]
  rcases h1 with h1 | ⟨h1, h1'⟩ <;> rcases h2 with h2 | ⟨h2, h2'⟩ <;>
    simp_all <;> first
      | exact absurd (h1.trans h2) (lt_irrefl _)
      | exact le_antisymm h1' h2'

theorem optLE_refl (a : ℚ × GuessSignature) : optLE a a := by
  unfold optLE
  simp

theorem sortOptions_perm (l : List (ℚ × GuessSignature)) : List.Perm (sortOptions l) l :=
  List.mergeSort_perm l optLE

/-- The selection sort step (hangman.rs:122-127) erases any dependence on the
options' incidental order: permuted inputs sort to the same list. -/
theorem sortOptions_eq_of_perm (l₁ l₂ : List (ℚ × GuessSignature)) (h : List.Perm l₁ l₂) :
    sortOptions l₁ = sortOptions l₂ := by
  have hs₁ : (sortOptions l₁).Pairwise (fun a b => optLE a b = true) :=
    List.sorted_mergeSort (fun a b c => optLE_trans a b c) (fun a b => optLE_total a b) l₁
  have hs₂ : (sortOptions l₂).Pairwise (fun a b => optLE a b = true) :=
    List.sorted_mergeSort (fun a b c => optLE_trans a b c) (fun a b => optLE_total a b) l₂
  haveI inst : IsAntisymm (ℚ × GuessSignature) (fun a b => optLE a b = true) :=
    ⟨fun a b h1 h2 => optLE_antisymm a b h1 h2⟩
  exact @List.eq_of_perm_of_sorted _ _ inst _ _
    ((sortOptions_perm l₁).trans (h.trans (sortOptions_perm l₂).symm)) hs₁ hs₂

/-- `weighted_choice` depends on its options only through the sorted list. -/
theorem weighted_choice_congr (l₁ l₂ : List (ℚ × GuessSignature)) (u : ℚ)
    (h : sortOptions l₁ = sortOptions l₂) :
    weighted_choice l₁ u = weighted_choice l₂ u := by
  unfold weighted_choice
  rw [h]

/-- `choose_guess_outcome` gives the same signature for any iteration order
of the bucket mapping. -/
theorem choose_guess_outcome_perm (pf : ℚ → ℚ → ℚ) (st : Settings)
    (b₁ b₂ : Buckets) (u : ℚ) (h : List.Perm b₁ b₂) :
    choose_guess_outcome pf b₁ st u = choose_guess_outcome pf b₂ st u := by
  unfold choose_guess_outcome
  apply weighted_choice_congr
  apply sortOptions_eq_of_perm
  rw [buildOptions_eq_map, buildOptions_eq_map]
  exact h.map _

/-- In a `Pairwise optLE` list, the last element is a maximum. -/
theorem pairwise_getLast?_max :
    ∀ (l : List (ℚ × GuessSignature)), l.Pairwise (fun a b => optLE a b = true) →
      ∀ (p : ℚ × GuessSignature), l.getLast? = some p →
        ∀ q ∈ l, optLE q p := by
  intro l
  induction l with
  | nil => intro _ p h; simp at h
  | cons a rest ih =>
    intro hpw p hlast q hq
    rcases List.pairwise_cons.mp hpw with ⟨ha, hrest⟩
    cases rest with
    | nil =>
      simp at hlast hq
      subst hlast
      subst hq
      exact optLE_refl _
    | cons b rest' =>
      have hlast' : (b :: rest').getLast? = some p := by
        simpa [List.getLast?_cons_cons] using hlast
      rcases List.mem_cons.mp hq with hqa | hqrest
      · subst hqa
        have hbp : p ∈ b :: rest' := by
          rcases List.getLast?_eq_some_iff.mp hlast' with ⟨ys, hys⟩
          rw [hys]
          simp
        exact ha _ hbp
      · exact ih hrest p hlast' q hqrest

/-! ## Lemmas: display pattern -/

theorem display_signature_nil (sig : ℕ) (g : Char) :
    display_signature sig [] g = [] := rfl

theorem display_signature_cons (sig : ℕ) (c : Char) (rest : Word) (g : Char) :
    display_signature sig (c :: rest) g =
      (if sig % 2 = 1 then g else c) :: display_signature (sig / 2) rest g := by
  unfold display_signature
  rw [List.length_cons, decode_signature_succ]
  by_cases h : sig % 2 = 1 <;> simp [h]

theorem length_display_signature (sig : ℕ) (prev : Word) (g : Char) :
    (display_signature sig prev g).length = prev.length := by
  unfold display_signature
  rw [List.length_map, List.length_zip, length_decode_signature]
  simp

/-- A placeholder in the output forces a placeholder in the previous pattern
and a clear decoded bit (for a non-placeholder guess letter). -/
theorem display_signature_placeholder (g : Char) (hg : g ≠ '_') :
    ∀ (prev : Word) (sig : ℕ) (i : ℕ), i < prev.length →
      (display_signature sig prev g).getD i '_' = '_' →
      prev.getD i '_' = '_' ∧
        (decode_signature sig prev.length).getD i false = false := by
  intro prev
  induction prev with
  | nil => intro sig i h; simp at h
  | cons c rest ih =>
    intro sig i hi hd
    rw [display_signature_cons] at hd
    cases i with
    | zero =>
      simp only [List.getD_cons_zero] at hd ⊢
      by_cases h : sig % 2 = 1
      · rw [if_pos h] at hd
        exact absurd hd hg
      · rw [if_neg h] at hd
        refine ⟨hd, ?_⟩
        rw [List.length_cons, decode_signature_succ]
        simp [h]
    | succ i =>
      simp only [List.getD_cons_succ] at hd ⊢
      have hi' : i < rest.length := by
        simp only [List.length_cons] at hi
        omega
      obtain ⟨h1, h2⟩ := ih (sig / 2) i hi' hd
      refine ⟨h1, ?_⟩
      rw [List.length_cons, decode_signature_succ]
      simpa using h2

/-! ## Lemmas: replay determinism -/

theorem replayStep_perm (pf : ℚ → ℚ → ℚ) (st : Settings)
    (io₁ io₂ : Buckets → Buckets)
    (h₁ : ∀ b, List.Perm (io₁ b) b) (h₂ : ∀ b, List.Perm (io₂ b) b)
    (guess : Char) (u : ℚ) (state : List Word × Word) :
    replayStep pf st io₁ guess u state = replayStep pf st io₂ guess u state := by
  simp only [replayStep]
  have hc : choose_guess_outcome pf (io₁ (guess_buckets state.1 guess)) st u
      = choose_guess_outcome pf (io₂ (guess_buckets state.1 guess)) st u :=
    choose_guess_outcome_perm pf st _ _ u ((h₁ _).trans (h₂ _).symm)
  rw [hc]

theorem replayLoop_perm (pf : ℚ → ℚ → ℚ) (st : Settings)
    (io₁ io₂ : ℕ → Buckets → Buckets) (urand : ℕ → ℚ)
    (h₁ : ∀ n b, List.Perm (io₁ n b) b) (h₂ : ∀ n b, List.Perm (io₂ n b) b) :
    ∀ (guesses : List Char) (n : ℕ) (state : List Word × Word),
      replayLoop pf st io₁ urand n guesses state
        = replayLoop pf st io₂ urand n guesses state := by
  intro guesses
  induction guesses with
  | nil => intro n state; rfl
  | cons g rest ih =>
    intro n state
    unfold replayLoop
    rw [replayStep_perm pf st (io₁ n) (io₂ n) (h₁ n) (h₂ n) g (urand n) state]
    cases replayStep pf st (io₂ n) g (urand n) state with
    | none => rfl
    | some state' => exact ih (n + 1) state'

/-! ## Lemmas: word-list loading -/

/-- `read_word_list` with the word-list contents supplied as its own
exclusions list (which is what `main` does) always returns the empty list:
every alphabetic line excludes itself. -/
theorem read_word_list_self (lines : List Word) :
    read_word_list lines lines = [] := by
  simp only [read_word_list]
  have hf : lines.filter
      (fun w => isAlphabetic w && !(lines.filter isAlphabetic).contains w) = [] := by
    rw [List.filter_eq_nil_iff]
    intro w hw
    by_cases ha : isAlphabetic w
    · have hmem : w ∈ lines.filter isAlphabetic := List.mem_filter.mpr ⟨hw, ha⟩
      simp [ha, hmem]
    · simp [ha]
  rw [hf]
  simp [dedupAdjacent]

/-- A word none of whose letters match the guess has signature zero. -/
theorem wordSignatureNat_eq_zero (w : Word) (g : Char) (h : ∀ c ∈ w, c ≠ g) :
    wordSignatureNat w g = 0 := by
  induction w with
  | nil => rfl
  | cons c rest ih =>
    rw [wordSignatureNat_cons, ih (fun x hx => h x (List.mem_cons_of_mem c hx))]
    simp [h c (List.mem_cons_self c rest)]

/-! ## Claim theorems -/

/-- C1: the claim says the word source supplied to `play_game` is the
word-list file's lines normalized and filtered against the exclusion set read
from the configured exclusions-list path, keeping words not listed there.
The code violates this: `main` (main.rs:71) passes the word-list path as the
exclusions path too, so every alphabetic word excludes itself and the
supplied word source is ALWAYS empty — with word file line "cat" and
exclusions file line "zzz", the spec-required source is ["CAT"] (third
conjunct, the correctly wired call), but `main` supplies [] (second
conjunct). -/
theorem c1_main_word_source_always_empty :
    (∀ wordLines exclLines : List Word, mainWordSource wordLines exclLines = [])
    ∧ mainWordSource [['c', 'a', 't']] [['z', 'z', 'z']] = []
    ∧ read_word_list [['c', 'a', 't']] [['z', 'z', 'z']] = [['C', 'A', 'T']] :=
  ⟨fun wordLines _ => read_word_list_self wordLines,
   read_word_list_self _, by
    simp only [read_word_list]
    rw [show List.map toUppercase
        (List.filter
          (fun w => isAlphabetic w &&
            !(List.filter isAlphabetic [['z', 'z', 'z']]).contains w)
          [['c', 'a', 't']]) = [['C', 'A', 'T']] from by decide]
    rw [List.mergeSort_singleton]
    rfl⟩

/-- C2: for every non-empty bucket mapping (in any iteration order), any
settings and any generator draw, `choose_guess_outcome` returns `some`
signature that is a key of the mapping; and when the subtracting walk
exhausts the sorted options without the dart going negative, the returned
signature is the last — and hence `optLE`-greatest — element of the sorted
options. Proved for every abstraction `pf` of `f64::powf`, hence for the
actual floating-point weights. -/
theorem c2_choose_guess_outcome_total (pf : ℚ → ℚ → ℚ) (buckets : Buckets)
    (st : Settings) (u : ℚ) (h : buckets ≠ []) :
    (∃ sig, choose_guess_outcome pf buckets st u = some sig
        ∧ sig ∈ buckets.map Prod.fst)
    ∧ (walkDart (sortOptions (buildOptions pf st buckets))
          (u * totalWeight (sortOptions (buildOptions pf st buckets))) = none →
        ∃ p, (sortOptions (buildOptions pf st buckets)).getLast? = some p
          ∧ choose_guess_outcome pf buckets st u = some p.2
          ∧ ∀ q ∈ sortOptions (buildOptions pf st buckets), optLE q p) := by
  have hkeys : (buildOptions pf st buckets).map Prod.snd = buckets.map Prod.fst := by
    rw [buildOptions_eq_map, List.map_map]
    rfl
  have hne : buildOptions pf st buckets ≠ [] := by
    rw [buildOptions_eq_map]
    simpa using h
  have hsne : sortOptions (buildOptions pf st buckets) ≠ [] := by
    intro hcon
    exact hne (List.Perm.eq_nil (hcon ▸ (sortOptions_perm _).symm))
  have hmem_of_sorted : ∀ x, x ∈ (sortOptions (buildOptions pf st buckets)).map Prod.snd →
      x ∈ buckets.map Prod.fst := by
    intro x hx
    rw [← hkeys]
    exact ((sortOptions_perm _).map Prod.snd).mem_iff.mp hx
  constructor
  · simp only [choose_guess_outcome, weighted_choice]
    cases hw : walkDart (sortOptions (buildOptions pf st buckets))
        (u * totalWeight (sortOptions (buildOptions pf st buckets))) with
    | some x =>
      exact ⟨x, rfl, hmem_of_sorted x (walkDart_mem _ _ _ hw)⟩
    | none =>
      rcases List.getLast?_isSome.mpr hsne |> Option.isSome_iff_exists.mp with ⟨p, hp⟩
      refine ⟨p.2, by rw [hp]; rfl, hmem_of_sorted p.2 ?_⟩
      rcases List.getLast?_eq_some_iff.mp hp with ⟨ys, hys⟩
      rw [hys]
      simp
  · intro hw
    rcases List.getLast?_isSome.mpr hsne |> Option.isSome_iff_exists.mp with ⟨p, hp⟩
    refine ⟨p, hp, ?_, ?_⟩
    · simp only [choose_guess_outcome, weighted_choice]
      rw [hw, hp]
      rfl
    · exact pairwise_getLast?_max _
        (List.sorted_mergeSort (fun a b c => optLE_trans a b c)
          (fun a b => optLE_total a b) _) p hp

/-- Witness for C2 at a concrete one-bucket mapping. -/
theorem c2_witness :
    ∃ sig, choose_guess_outcome (fun a b => a + b) [((0 : ℕ), [['A']])]
        ⟨1, 2⟩ (1 / 2) = some sig
      ∧ sig ∈ ([((0 : ℕ), [['A']])] : Buckets).map Prod.fst :=
  (c2_choose_guess_outcome_total (fun a b => a + b) [((0 : ℕ), [['A']])]
    ⟨1, 2⟩ (1 / 2) (by simp)).1

/-- C3: for a fixed word list, history, settings and draw stream, two runs of
`replay_history` that may observe the bucket `HashMap` in arbitrarily
different iteration orders (any per-step permutations `io₁`, `io₂`) produce
identical results — the same final reveal pattern and the same candidate
word list, in the same order — because `weighted_choice` sorts the options
into a canonical order before drawing. -/
theorem c3_replay_deterministic (pf : ℚ → ℚ → ℚ) (st : Settings)
    (io₁ io₂ : ℕ → Buckets → Buckets) (urand : ℕ → ℚ)
    (wordList : List Word) (history : History)
    (h₁ : ∀ n b, List.Perm (io₁ n b) b) (h₂ : ∀ n b, List.Perm (io₂ n b) b) :
    replay_history pf st io₁ urand wordList history
      = replay_history pf st io₂ urand wordList history := by
  simp only [replay_history]
  exact replayLoop_perm pf st io₁ io₂ urand h₁ h₂ history.guesses 0 _

/-- Witness for C3: identity iteration order versus reversed iteration
order on a concrete three-word session. -/
theorem c3_witness :
    replay_history (fun a b => a + b) ⟨1, 2⟩ (fun _ b => b) (fun _ => 1 / 2)
        [['C', 'A', 'T'], ['C', 'O', 'T'], ['C', 'A', 'R']] ⟨3, ['A']⟩
      = replay_history (fun a b => a + b) ⟨1, 2⟩ (fun _ b => b.reverse)
        (fun _ => 1 / 2)
        [['C', 'A', 'T'], ['C', 'O', 'T'], ['C', 'A', 'R']] ⟨3, ['A']⟩ :=
  c3_replay_deterministic (fun a b => a + b) ⟨1, 2⟩ (fun _ b => b)
    (fun _ b => b.reverse) (fun _ => 1 / 2)
    [['C', 'A', 'T'], ['C', 'O', 'T'], ['C', 'A', 'R']] ⟨3, ['A']⟩
    (fun _ b => List.Perm.refl b) (fun _ b => List.reverse_perm b)

/-- C4: for every word of length at most 64 and every guessed letter,
decoding the encoded signature with the word's letter count yields exactly
the per-position match booleans, first letter first; equivalently, bit `i`
of the signature (from the least significant bit) is set iff position `i`
of the word equals the guess. -/
theorem c4_decode_encode_roundtrip (w : Word) (g : Char) (h : w.length ≤ 64) :
    decode_signature (word_signature w g) w.length = w.map (fun c => c == g)
    ∧ ∀ (i : ℕ) (hi : i < w.length),
        (Nat.testBit (word_signature w g) i = true ↔ w.get ⟨i, hi⟩ = g) := by
  constructor
  · rw [word_signature_eq_nat w g h]
    exact decode_wordSignatureNat w g
  · intro i hi
    rw [word_signature_eq_nat w g h]
    have hd := decode_signature_getD w.length (wordSignatureNat w g) i hi
    rw [decode_wordSignatureNat w g] at hd
    rw [← hd]
    simp [List.getD_eq_getElem?_getD, List.getElem?_map,
      List.getElem?_eq_getElem hi]

/-- Witness for C4 at the word CAT, guess A. -/
theorem c4_witness :
    decode_signature (word_signature ['C', 'A', 'T'] 'A')
        (['C', 'A', 'T'] : Word).length
      = (['C', 'A', 'T'] : Word).map (fun c => c == 'A') :=
  (c4_decode_encode_roundtrip ['C', 'A', 'T'] 'A' (by decide)).1

/-- C5: `guess_buckets` partitions its input: the mapping is empty iff the
input is, bucket sizes sum to the input length, keys are distinct, and each
key's bucket is exactly the input's words with that signature in input
order — so every word lands in exactly one bucket, the one keyed by its own
signature. -/
theorem c5_guess_buckets_partition (wl : List Word) (g : Char) :
    (guess_buckets wl g = [] ↔ wl = [])
    ∧ bucketsSize (guess_buckets wl g) = wl.length
    ∧ (((guess_buckets wl g).map Prod.fst).Nodup)
    ∧ ∀ sig, (lookupBucket (guess_buckets wl g) sig).getD []
        = wl.filter (fun w => word_signature w g == sig) :=
  ⟨guess_buckets_eq_nil_iff wl g, guess_buckets_size wl g,
   guess_buckets_keys_nodup wl g, fun sig => guess_buckets_getD wl g sig⟩

/-- Witness for C5 on a concrete word list. -/
theorem c5_witness :
    bucketsSize (guess_buckets [['C', 'A', 'T'], ['C', 'O', 'T']] 'A')
      = ([['C', 'A', 'T'], ['C', 'O', 'T']] : List Word).length :=
  (c5_guess_buckets_partition [['C', 'A', 'T'], ['C', 'O', 'T']] 'A').2.1

/-- C6: each bucket with signature `s` and `n` members is assigned, before
the draw, the weight `powf n evil_exponent / powf evil_factor (count_matches s)`
(with `pf` abstracting `f64::powf`), and `count_matches` is the population
count: the number of set bits of the signature (for `u64` values, the set
positions among bits 0..63). -/
theorem c6_bucket_weight_formula (pf : ℚ → ℚ → ℚ) (st : Settings)
    (buckets : Buckets) :
    buildOptions pf st buckets = buckets.map (fun p =>
        (pf ((p.2.length : ℕ) : ℚ) st.evil_exponent
            / pf st.evil_factor ((count_matches p.1 : ℕ) : ℚ), p.1))
    ∧ ∀ sig : GuessSignature, sig < 2 ^ 64 →
        count_matches sig
          = ((List.range 64).filter (fun i => sig.testBit i)).length := by
  constructor
  · rw [buildOptions_eq_map]
    rfl
  · intro sig hs
    exact countOnes_eq_filter_range 64 sig hs

/-- Witness for C6: the popcount characterization at signature 5. -/
theorem c6_witness :
    count_matches 5 = ((List.range 64).filter (fun i => Nat.testBit 5 i)).length :=
  (c6_bucket_weight_formula (fun a b => a + b) ⟨1, 2⟩ []).2 5 (by decide)

/-- C7: `display_signature` preserves the pattern length, and a position of
the output is a placeholder only if it was a placeholder before the guess
and its decoded bit is clear — so a revealed position never reverts to the
placeholder across the session's updates (session guesses are alphabetic,
hence distinct from the placeholder). -/
theorem c7_reveal_monotonic (sig : GuessSignature) (prev : Word) (g : Char)
    (hg : g ≠ '_') :
    (display_signature sig prev g).length = prev.length
    ∧ ∀ i : ℕ, i < prev.length →
        (display_signature sig prev g).getD i '_' = '_' →
        prev.getD i '_' = '_' ∧
          (decode_signature sig prev.length).getD i false = false :=
  ⟨length_display_signature sig prev g,
   fun i hi hd => display_signature_placeholder g hg prev sig i hi hd⟩

/-- Witness for C7 on a concrete pattern update. -/
theorem c7_witness :
    (display_signature 2 ['C', '_', '_'] 'A').length
      = (['C', '_', '_'] : Word).length :=
  (c7_reveal_monotonic 2 ['C', '_', '_'] 'A' (by decide)).1

/-- C8 counterexample: the claim says every word longer than 64 letters
fails to encode with an OutOfRange error; but `word_signature` has no length
check and no error path — a 65-letter word with no matching positions is
encoded without any failure, returning the signature 0. -/
theorem c8_counterexample :
    (List.replicate 65 'B').length = 65
    ∧ word_signature (List.replicate 65 'B') 'A' = 0 := by
  constructor
  · simp
  · rw [word_signature_eq_mod, wordSignatureNat_eq_zero]
    · rfl
    · intro c hc
      have hcb : c = 'B' := List.eq_of_mem_replicate hc
      subst hcb
      decide

/-- C8 (amended): `word_signature` never signals an error: it totally
returns the exact signature reduced mod `2^64` (the `u64` wrap), and for
every word of length at most 64 it succeeds with the exact signature. -/
theorem c8_amended_no_length_check (w : Word) (g : Char) :
    word_signature w g = wordSignatureNat w g % U64MOD
    ∧ (w.length ≤ 64 → word_signature w g = wordSignatureNat w g) :=
  ⟨word_signature_eq_mod w g, fun h => word_signature_eq_nat w g h⟩

/-- Witness for the amended C8. -/
theorem c8_witness :
    word_signature ['A'] 'A' = wordSignatureNat ['A'] 'A' % U64MOD
    ∧ word_signature ['A'] 'A' = wordSignatureNat ['A'] 'A' :=
  ⟨(c8_amended_no_length_check ['A'] 'A').1,
   (c8_amended_no_length_check ['A'] 'A').2 (by decide)⟩

/-- C9: invoked on an empty bucket mapping (zero candidate words — also the
partition of an empty word list), the outcome policy signals the
unrecoverable failure (`unwrap` panic on the empty options list, modelled as
`none`) instead of returning a signature. -/
theorem c9_empty_mapping_fails (pf : ℚ → ℚ → ℚ) (st : Settings) (u : ℚ) :
    choose_guess_outcome pf [] st u = none
    ∧ ∀ g : Char, choose_guess_outcome pf (guess_buckets [] g) st u = none := by
  have h : choose_guess_outcome pf [] st u = none := by
    simp only [choose_guess_outcome, weighted_choice, buildOptions, List.foldl_nil]
    simp [sortOptions, walkDart]
  exact ⟨h, fun _ => h⟩

/-- C10: for words of length at most 64 the `u64` accumulation never wraps:
the machine computation agrees with the unbounded one, the result is below
`2 ^ length`, and every intermediate accumulator value (after any number of
processed characters) stays below `2 ^ 64`. -/
theorem c10_no_overflow (w : Word) (g : Char) (h : w.length ≤ 64) :
    word_signature w g = wordSignatureNat w g
    ∧ wordSignatureNat w g < 2 ^ w.length
    ∧ ∀ k : ℕ, (w.reverse.take k).foldl (sigStepNat g) 0 < 2 ^ 64 := by
  refine ⟨word_signature_eq_nat w g h, wordSignatureNat_lt w g, fun k => ?_⟩
  have h1 := foldl_sigStepNat_lt g (w.reverse.take k) 0
  have h2 : (w.reverse.take k).length ≤ 64 := by
    rw [List.length_take]
    have : w.reverse.length = w.length := List.length_reverse w
    omega
  calc (w.reverse.take k).foldl (sigStepNat g) 0
      < (0 + 1) * 2 ^ (w.reverse.take k).length := h1
    _ = 2 ^ (w.reverse.take k).length := by ring
    _ ≤ 2 ^ 64 := Nat.pow_le_pow_right (by omega) h2

/-- Witness for C10 at the word CAT. -/
theorem c10_witness :
    word_signature ['C', 'A', 'T'] 'A' = wordSignatureNat ['C', 'A', 'T'] 'A' :=
  (c10_no_overflow ['C', 'A', 'T'] 'A' (by decide)).1

end Hangman
